import Mathlib

/-!
Shallow embedding of the DocuQuery retrieval-and-synthesis pipeline
(`main.py`): text normalization (`clean_text`), sentence splitting
(`split_sentences`), chunking (`chunk_text`), hit de-duplication
(`dedupe_hits`), extractive answer synthesis (`synthesize_answer`),
the distance filter of the `ask` route, and the indexing loop of the
`upload` route.

Strings are modelled as `List Char`; the ASCII fragment of Python's
`\s` / `\w` character classes and of `str.lower` is used (the pipeline
only relies on those).  Python `float` distances and scores are
modelled as `ℚ`; the claims about them are purely order-theoretic.
-/

namespace DocuQuery

/-- ASCII whitespace, the fragment of Python's regex class `\s` used here. -/
def isWs (c : Char) : Bool :=
  c == ' ' || c == '\t' || c == '\n' || c == '\r' || c == '\x0b' || c == '\x0c'

/-- ASCII decimal digit, regex class `\d`. -/
def isDigit (c : Char) : Bool :=
  decide ('0' ≤ c ∧ c ≤ '9')

/-- ASCII word character, regex class `\w`. -/
def isWordChar (c : Char) : Bool :=
  decide ('a' ≤ c ∧ c ≤ 'z') || decide ('A' ≤ c ∧ c ≤ 'Z') || isDigit c || c == '_'

/-- Python `str.lower` on the ASCII range, character-wise. -/
def lowerStr (s : List Char) : List Char :=
  s.map Char.toLower

/-- String literal helper: the character list of a Lean string literal. -/
def lchars (s : String) : List Char :=
  s.toList

/-- Python `str.replace(ab, r)` for a two-character pattern `[a, b]` and a
one-character replacement `r`: scan left to right, on a match emit `r` and
continue after the matched pair (`main.py` lines 88). -/
def pyReplace (a b r : Char) : List Char → List Char
  | [] => []
  | [c] => [c]
  | c :: d :: rest =>
    if c = a ∧ d = b then r :: pyReplace a b r rest
    else c :: pyReplace a b r (d :: rest)

/-- After the literal `(cid:` of the artifact regex `\(cid:\d+\)`: consume one
or more digits then a closing parenthesis; return the remaining suffix on a
match.  `sawDigit` records whether at least one digit was consumed. -/
def cidTail : List Char → Bool → Option (List Char)
  | [], _ => none
  | c :: rest, sawDigit =>
    if isDigit c then cidTail rest true
    else if c = ')' ∧ sawDigit then some rest
    else none

/-- Try to match the artifact regex `\(cid:\d+\)` (`_CID_RE`, `main.py` line 79)
at the head of the list; return the suffix after the match. -/
def cidMatch : List Char → Option (List Char)
  | '(' :: 'c' :: 'i' :: 'd' :: ':' :: rest => cidTail rest false
  | _ => none

/-- `_CID_RE.sub("", t)`: delete every leftmost non-overlapping `(cid:<digits>)`
match, scanning left to right.  Fuel-indexed so the recursion is structural;
each step consumes at least one character, so fuel `t.length` is exact. -/
def cidSubF : Nat → List Char → List Char
  | _, [] => []
  | 0, l => l
  | fuel + 1, c :: rest =>
    match cidMatch (c :: rest) with
    | some r => cidSubF fuel r
    | none => c :: cidSubF fuel rest

/-- `_CID_RE.sub("", t)` (`main.py` line 87). -/
def cidSub (l : List Char) : List Char :=
  cidSubF l.length l

/-- `_WS_RE.sub(" ", t)` (`main.py` line 89): replace each maximal whitespace
run by a single space (each run contributes the `' '` at its last character). -/
def collapseWs : List Char → List Char
  | [] => []
  | [c] => if isWs c then [' '] else [c]
  | c :: d :: rest =>
    if isWs c then
      if isWs d then collapseWs (d :: rest)
      else ' ' :: collapseWs (d :: rest)
    else c :: collapseWs (d :: rest)

/-- Remove trailing whitespace (the right half of Python `str.strip()`). -/
def rstrip : List Char → List Char
  | [] => []
  | c :: rest =>
    let r := rstrip rest
    if r = [] ∧ isWs c then [] else c :: r

/-- Python `str.strip()`: drop leading and trailing whitespace. -/
def stripWs (l : List Char) : List Char :=
  rstrip (l.dropWhile isWs)

/-- `clean_text` (`main.py` lines 83-90): empty guard, `(cid:N)` artifact
removal, `" ." -> "."` and `" ," -> ","` replacements, whitespace collapse,
strip. -/
def clean_text (t : List Char) : List Char :=
  if t = [] then []
  else stripWs (collapseWs (pyReplace ' ' ',' ',' (pyReplace ' ' '.' '.' (cidSub t))))

/-- Accumulator pass of `splitRuns`: `acc` holds the reversed current run of
kept characters. -/
def runsGo (keep : Char → Bool) : List Char → List Char → List (List Char)
  | [], acc => if acc = [] then [] else [acc.reverse]
  | c :: rest, acc =>
    if keep c then runsGo keep rest (c :: acc)
    else if acc = [] then runsGo keep rest []
    else acc.reverse :: runsGo keep rest []

/-- The maximal runs of characters satisfying `keep`, in order; empty runs do
not occur. -/
def splitRuns (keep : Char → Bool) (l : List Char) : List (List Char) :=
  runsGo keep l []

/-- Python `str.split()` with no arguments: maximal non-whitespace runs
(`main.py` line 116). -/
def pySplit (l : List Char) : List (List Char) :=
  splitRuns (fun c => !isWs c) l

/-- `re.findall(r"\b\w+\b", s)`: the maximal word-character runs (the `\b`
anchors hold automatically at maximal-run boundaries). -/
def findTokens (l : List Char) : List (List Char) :=
  splitRuns isWordChar l

/-- Scan for `_SENT_SPLIT_RE = (?<=[.!?])\s+` split points (`main.py` line 81):
split at a whitespace character whose predecessor is `.`, `!` or `?`.  The
input is always whitespace-collapsed (`split_sentences` cleans first), so each
`\s+` run is a single character and this per-character split is exact.  `prev`
is the previous character (sentinel `'A'` at the start: no lookbehind match). -/
def sentSplitGo : List Char → Char → List Char → List (List Char)
  | [], _, acc => [acc.reverse]
  | c :: rest, prev, acc =>
    if isWs c ∧ (prev = '.' ∨ prev = '!' ∨ prev = '?') then
      acc.reverse :: sentSplitGo rest c []
    else sentSplitGo rest c (c :: acc)

/-- `split_sentences` (`main.py` lines 92-95): clean, split on sentence
boundaries, strip each part, drop empties. -/
def split_sentences (t : List Char) : List (List Char) :=
  let ct := clean_text t
  ((sentSplitGo ct 'A' []).map stripWs).filter (fun p => p ≠ [])

/-- Python `" ".join(ws)`. -/
def joinSp : List (List Char) → List Char
  | [] => []
  | [w] => w
  | w :: ws => w ++ ' ' :: joinSp ws

/-- Python `range(i, stop, s+1)` as a fuel-indexed loop (the fuel bounds the
number of iterations; `stop` iterations always suffice since the step is at
least 1). -/
def pyRangeGo : Nat → Nat → Nat → Nat → List Nat
  | 0, _, _, _ => []
  | fuel + 1, stop, s, i =>
    if i < stop then i :: pyRangeGo fuel stop s (i + s + 1) else []

/-- Python `range(0, stop, step)` for `step ≥ 1` (the only use site passes
`step = max 1 _`). -/
def pyRange0 (stop step : Nat) : List Nat :=
  pyRangeGo stop stop (step - 1) 0

/-- `chunk_text` (`main.py` lines 114-121): clean and word-split the text; if no
words, no chunks; else windows of `max_words` words starting every
`step = max 1 (max_words - overlap)` words, rejoined with single spaces. -/
def chunk_text (text : List Char) (max_words : Nat := 220) (overlap : Nat := 60) :
    List (List Char) :=
  let words := pySplit (clean_text text)
  if words = [] then []
  else
    let step := max 1 (max_words - overlap)
    (pyRange0 words.length step).map (fun i => joinSp ((words.drop i).take max_words))

/-- A retrieved passage plus its distance, as built by the `ask` route
(`main.py` lines 259-265); `distance` is modelled as `ℚ`. -/
structure Hit where
  snippet : List Char
  doc_id : List Char
  title : List Char
  page : Nat
  distance : ℚ
deriving DecidableEq

/-- The de-duplication key of a hit: `(page, clean_text(snippet)[:head_len])`
(`main.py` line 176). -/
def hitKey (head_len : Nat) (h : Hit) : Nat × List Char :=
  (h.page, (clean_text h.snippet).take head_len)

/-- Ascending-distance order on hits (`sorted(hits, key=...)`, line 175). -/
def hitLe (a b : Hit) : Prop :=
  a.distance ≤ b.distance

instance : DecidableRel hitLe :=
  fun a b => inferInstanceAs (Decidable (a.distance ≤ b.distance))

instance : IsTotal Hit hitLe :=
  ⟨fun a b => le_total a.distance b.distance⟩

instance : IsTrans Hit hitLe :=
  ⟨fun _ _ _ hab hbc => le_trans hab hbc⟩

/-- The scan of `dedupe_hits` over the distance-sorted hits: keep a hit iff its
key is unseen (`main.py` lines 173-180). -/
def dedupeGo (head_len : Nat) : List Hit → List (Nat × List Char) → List Hit
  | [], _ => []
  | h :: rest, seen =>
    let key := hitKey head_len h
    if key ∈ seen then dedupeGo head_len rest seen
    else h :: dedupeGo head_len rest (key :: seen)

/-- `dedupe_hits` (`main.py` lines 171-181): sort by ascending distance
(Python `sorted` is stable, as is insertion sort), then drop hits whose
`(page, normalized-head)` key was already seen. -/
def dedupe_hits (hits : List Hit) (head_len : Nat := 200) : List Hit :=
  dedupeGo head_len (List.insertionSort hitLe hits) []

/-- The optional distance threshold of the `ask` route (`main.py` lines
269-270): keep exactly the hits with `distance <= max_distance`. -/
def distanceFilter (hits : List Hit) (max_distance : ℚ) : List Hit :=
  hits.filter (fun h => decide (h.distance ≤ max_distance))

/-- A scored candidate sentence of the synthesizer
(`candidates` entries, `main.py` line 150). -/
structure Cand where
  score : ℚ
  sent : List Char
  page : Nat
  title : List Char
deriving DecidableEq

/-- Descending-score order on candidates
(`candidates.sort(key=..., reverse=True)`, line 152). -/
def candGe (a b : Cand) : Prop :=
  b.score ≤ a.score

instance : DecidableRel candGe :=
  fun a b => inferInstanceAs (Decidable (b.score ≤ a.score))

instance : IsTotal Cand candGe :=
  ⟨fun a b => le_total b.score a.score⟩

instance : IsTrans Cand candGe :=
  ⟨fun _ _ _ hab hbc => le_trans hbc hab⟩

/-- The token set of a string: `set(re.findall(r"\b\w+\b", s.lower()))`,
modelled as the deduplicated token list (`main.py` lines 138 and 144). -/
def toksOf (s : List Char) : List (List Char) :=
  (findTokens (lowerStr s)).dedup

/-- One sentence's contribution to the candidate list (`main.py` lines
143-150): skip it if it has no tokens, else score it by
`|q ∩ toks| / (1 + |toks|)` and append it when the overlap is positive or
fewer than 4 candidates exist so far. -/
def candInner (qtoks : List (List Char)) (pg : Nat) (ttl : List Char)
    (acc : List Cand) (sent : List Char) : List Cand :=
  let toks := toksOf sent
  if toks = [] then acc
  else
    let overlap := (qtoks.filter (fun w => decide (w ∈ toks))).length
    let score := (overlap : ℚ) / (1 + (toks.length : ℚ))
    if 0 < overlap ∨ acc.length < 4 then acc ++ [⟨score, sent, pg, ttl⟩]
    else acc

/-- One hit's contribution to the candidate list (`main.py` lines 141-150). -/
def candStep (qtoks : List (List Char)) (acc : List Cand) (h : Hit) : List Cand :=
  (split_sentences (clean_text h.snippet)).foldl (candInner qtoks h.page h.title) acc

/-- The full candidate list of one synthesis call (`main.py` lines 138-150). -/
def candidatesOf (question : List Char) (hits : List Hit) : List Cand :=
  hits.foldl (candStep (toksOf question)) []

/-- The greedy selection loop (`main.py` lines 153-162): walk the sorted
candidates, skip a sentence whose lowercase form was already picked, stop as
soon as `max_sentences` sentences are picked (the length test runs after the
append, so one sentence is picked even when `max_sentences = 0`). -/
def pickLoop (maxS : Nat) :
    List Cand → List (List Char × Nat × List Char) → List (List Char) →
    List (List Char × Nat × List Char)
  | [], acc, _ => acc
  | c :: rest, acc, seen =>
    let norm := lowerStr c.sent
    if norm ∈ seen then pickLoop maxS rest acc seen
    else
      let acc2 := acc ++ [(c.sent, c.page, c.title)]
      if maxS ≤ acc2.length then acc2
      else pickLoop maxS rest acc2 (norm :: seen)

/-- The picked-sentence list before the fallback (`picked`, lines 152-162). -/
def pickedRaw (question : List Char) (hits : List Hit) (maxS : Nat) :
    List (List Char × Nat × List Char) :=
  pickLoop maxS (List.insertionSort candGe (candidatesOf question hits)) [] []

/-- The picked-sentence list after the fallback (`main.py` lines 164-165): if
nothing was picked, the cleaned snippet of the first hit is the single unit. -/
def pickedFinal (question : List Char) (hits : List Hit) (maxS : Nat) :
    List (List Char × Nat × List Char) :=
  match hits with
  | [] => []
  | h0 :: _ =>
    let picked := pickedRaw question hits maxS
    if picked = [] then [(clean_text h0.snippet, h0.page, h0.title)] else picked

/-- The result of one synthesis call: answer text plus `(page, title)`
citations. -/
structure SynRes where
  answer : List Char
  citations : List (Nat × List Char)
deriving DecidableEq

/-- `synthesize_answer` (`main.py` lines 128-169): empty hits give the empty
answer; otherwise join the picked sentences with single spaces and cite each
picked sentence's `(page, title)` in selection order. -/
def synthesize_answer (question : List Char) (hits : List Hit) (maxS : Nat := 3) :
    SynRes :=
  match hits with
  | [] => ⟨[], []⟩
  | _ :: _ =>
    let picked := pickedFinal question hits maxS
    ⟨joinSp (picked.map (fun p => p.1)), picked.map (fun p => (p.2.1, p.2.2))⟩

/-- A chunk indexed at upload time (`pages` entries, `main.py` line 218). -/
structure Passage where
  doc_id : List Char
  title : List Char
  page : Nat
  text : List Char
deriving DecidableEq

/-- The page loop of the `upload` route (`main.py` lines 211-218), `i` the
1-based page number: clean each page text, skip empty pages, one `Passage` per
chunk of the remaining pages. -/
def build_passages (doc_id title : List Char) (i : Nat) :
    List (List Char) → List Passage
  | [] => []
  | raw :: rest =>
    let text := clean_text raw
    (if text = [] then []
     else (chunk_text text).map (fun ch => ⟨doc_id, title, i, ch⟩))
      ++ build_passages doc_id title (i + 1) rest

/-- The indexing outcome of `upload` (`main.py` lines 220-227): HTTP 400 when
no chunk was produced, else the indexed passages. -/
def upload_core (doc_id title : List Char) (page_texts : List (List Char)) :
    Except Nat (List Passage) :=
  let pages := build_passages doc_id title 1 page_texts
  if pages = [] then Except.error 400 else Except.ok pages

/-- Proof-side invariant of whitespace-collapsed text: every whitespace
character is a plain space and no two adjacent characters are both
whitespace. -/
def WsNormal (l : List Char) : Prop :=
  (∀ c ∈ l, isWs c = true → c = ' ') ∧
    l.Chain' (fun a b => ¬(isWs a = true ∧ isWs b = true))

/-! ## Whitespace-normalization lemmas (for the `clean_text` idempotence
analysis) -/

theorem collapseWs_head_of_not_ws {d : Char} (rest : List Char)
    (hd : isWs d = false) :
    (collapseWs (d :: rest)).head? = some d := by
  cases rest with
  | nil => simp [collapseWs, hd]
  | cons e r => simp [collapseWs, hd]

theorem collapseWs_mem_space {l : List Char} :
    ∀ c ∈ collapseWs l, isWs c = true → c = ' ' := by
  induction l with
  | nil => simp [collapseWs]
  | cons c rest ih =>
    cases rest with
    | nil =>
      by_cases hc : isWs c = true <;>
        simp_all [collapseWs]
    | cons d r =>
      by_cases hc : isWs c = true <;> by_cases hd : isWs d = true <;>
        intro x hx hwx <;>
        simp only [collapseWs, hc, hd, if_pos, if_neg, Bool.false_eq_true,
          ite_true, ite_false] at hx <;>
        first
          | exact ih x hx hwx
          | (rcases List.mem_cons.mp hx with h | h
             · subst h; rfl
             · exact ih x h hwx)
          | (rcases List.mem_cons.mp hx with h | h
             · subst h; simp_all
             · exact ih x h hwx)

theorem collapseWs_chain' (l : List Char) :
    (collapseWs l).Chain' (fun a b => ¬(isWs a = true ∧ isWs b = true)) := by
  induction l with
  | nil => simp [collapseWs]
  | cons c rest ih =>
    cases rest with
    | nil =>
      by_cases hc : isWs c = true <;> simp [collapseWs, hc]
    | cons d r =>
      by_cases hc : isWs c = true <;> by_cases hd : isWs d = true
      · simpa [collapseWs, hc, hd] using ih
      · have hhead := collapseWs_head_of_not_ws (d := d) r (by simp_all)
        simp only [collapseWs, hc, hd, Bool.false_eq_true, ite_true, ite_false]
        rw [List.chain'_cons']
        refine ⟨fun b hb => ?_, ih⟩
        rw [hhead, Option.mem_def, Option.some.injEq] at hb
        subst hb
        simp_all
      · -- c not ws, d ws: head of the collapsed tail may be a space, but the
        -- adjacency predicate holds because c is not whitespace.
        simp only [collapseWs, hc, hd, Bool.false_eq_true, ite_true, ite_false]
        rw [List.chain'_cons']
        exact ⟨fun b _ hcon => by simp_all, ih⟩
      · have hhead := collapseWs_head_of_not_ws (d := d) r (by simp_all)
        simp only [collapseWs, hc, hd, Bool.false_eq_true, ite_true, ite_false]
        rw [List.chain'_cons']
        refine ⟨fun b hb => ?_, ih⟩
        rw [hhead, Option.mem_def, Option.some.injEq] at hb
        subst hb
        simp_all

theorem wsNormal_collapseWs (l : List Char) : WsNormal (collapseWs l) :=
  ⟨collapseWs_mem_space, collapseWs_chain' l⟩

theorem wsNormal_dropWhile {l : List Char} (h : WsNormal l) :
    WsNormal (l.dropWhile isWs) := by
  induction l with
  | nil => simpa using h
  | cons c rest ih =>
    by_cases hc : isWs c = true
    · rw [List.dropWhile_cons_of_pos hc]
      exact ih ⟨fun x hx => h.1 x (List.mem_cons_of_mem c hx), h.2.tail⟩
    · rwa [List.dropWhile_cons_of_neg (by simp_all)]

theorem rstrip_head (c : Char) (r : List Char) :
    rstrip (c :: r) = [] ∨ rstrip (c :: r) = c :: rstrip r := by
  by_cases h : rstrip r = [] ∧ isWs c = true
  · exact Or.inl (by simp [rstrip, h.1, h.2])
  · refine Or.inr ?_
    simp only [rstrip]
    rw [if_neg]
    simpa using h

theorem wsNormal_rstrip {l : List Char} (h : WsNormal l) : WsNormal (rstrip l) := by
  induction l with
  | nil => simpa using h
  | cons c rest ih =>
    rcases rstrip_head c rest with heq | heq
    · rw [heq]; exact ⟨by simp, List.chain'_nil⟩
    · rw [heq]
      have htail : WsNormal (rstrip rest) :=
        ih ⟨fun x hx => h.1 x (List.mem_cons_of_mem c hx), h.2.tail⟩
      refine ⟨?_, ?_⟩
      · intro x hx hwx
        rcases List.mem_cons.mp hx with hx0 | hx1
        · exact hx0 ▸ h.1 c (List.mem_cons_self c rest) (hx0 ▸ hwx)
        · exact htail.1 x hx1 hwx
      · rw [List.chain'_cons']
        refine ⟨?_, htail.2⟩
        intro b hb
        cases rest with
        | nil => simp [rstrip] at hb
        | cons d r2 =>
          rcases rstrip_head d r2 with h2 | h2
          · rw [h2] at hb; simp at hb
          · rw [h2] at hb
            simp only [List.head?_cons, Option.mem_def, Option.some.injEq] at hb
            subst hb
            exact (List.chain'_cons.mp h.2).1

theorem rstrip_idem (l : List Char) : rstrip (rstrip l) = rstrip l := by
  induction l with
  | nil => simp [rstrip]
  | cons c rest ih =>
    by_cases h : rstrip rest = [] ∧ isWs c = true
    · simp [rstrip, h.1, h.2]
    · have heq : rstrip (c :: rest) = c :: rstrip rest := by
        simp only [rstrip]
        rw [if_neg]
        simpa using h
      rw [heq]
      simp only [rstrip, ih]
      rw [if_neg]
      simpa using h

theorem collapseWs_eq_self {l : List Char} (h : WsNormal l) : collapseWs l = l := by
  induction l with
  | nil => simp [collapseWs]
  | cons c rest ih =>
    cases rest with
    | nil =>
      by_cases hc : isWs c = true
      · have : c = ' ' := h.1 c (by simp) hc
        simp [collapseWs, hc, this]
      · simp [collapseWs, hc]
    | cons d r =>
      have hadj : ¬(isWs c = true ∧ isWs d = true) := (List.chain'_cons.mp h.2).1
      have htail : WsNormal (d :: r) :=
        ⟨fun x hx => h.1 x (List.mem_cons_of_mem c hx), h.2.tail⟩
      by_cases hc : isWs c = true
      · have hd : isWs d = false := by
          cases hdd : isWs d
          · rfl
          · exact absurd ⟨hc, hdd⟩ hadj
        have hsp : c = ' ' := h.1 c (by simp) hc
        simp [collapseWs, hc, hd, ih htail, hsp]
      · simp [collapseWs, hc, ih htail]

theorem dropWhile_isWs_head (l : List Char) :
    l.dropWhile isWs = [] ∨
      ∃ c r, l.dropWhile isWs = c :: r ∧ isWs c = false := by
  induction l with
  | nil => simp
  | cons c rest ih =>
    by_cases hc : isWs c = true
    · rw [List.dropWhile_cons_of_pos hc]; exact ih
    · rw [List.dropWhile_cons_of_neg (by simp_all)]
      exact Or.inr ⟨c, rest, rfl, by simp_all⟩

theorem stripWs_collapseWs_idem (x : List Char) :
    stripWs (collapseWs (stripWs (collapseWs x))) = stripWs (collapseWs x) := by
  set y := collapseWs x with hy
  set t := stripWs y with ht
  have hwt : WsNormal t :=
    wsNormal_rstrip (wsNormal_dropWhile (hy ▸ wsNormal_collapseWs x))
  rw [collapseWs_eq_self hwt]
  by_cases htn : t = []
  · rw [htn]; simp [stripWs, rstrip]
  · have hdw : t.dropWhile isWs = t := by
      rcases dropWhile_isWs_head y with h0 | ⟨c, r, hcr, hcw⟩
      · exact absurd (by rw [ht, stripWs, h0]; simp [rstrip]) htn
      · rcases rstrip_head c r with h1 | h1
        · exact absurd (by rw [ht, stripWs, hcr, h1]) htn
        · rw [ht, stripWs, hcr, h1, List.dropWhile_cons_of_neg (by simp_all)]
    rw [stripWs, hdw, ht, stripWs, rstrip_idem]

/-! ## Run-splitting lemmas -/

theorem runsGo_ne_nil (keep : Char → Bool) (l : List Char) :
    ∀ acc, acc ≠ [] → runsGo keep l acc ≠ [] := by
  induction l with
  | nil => intro acc h; simp [runsGo, h]
  | cons c rest ih =>
    intro acc h
    by_cases hk : keep c = true
    · simp only [runsGo, hk, ite_true]
      exact ih (c :: acc) (by simp)
    · simp only [runsGo, hk, Bool.false_eq_true, ite_false, h, ite_false]
      simp [h]

theorem runsGo_mem_ne_nil (keep : Char → Bool) (l : List Char) :
    ∀ acc, ∀ w ∈ runsGo keep l acc, w ≠ [] := by
  induction l with
  | nil =>
    intro acc w hw
    by_cases h : acc = []
    · simp [runsGo, h] at hw
    · simp only [runsGo, h, ite_false] at hw
      simp only [List.mem_singleton] at hw
      subst hw
      simpa using h
  | cons c rest ih =>
    intro acc w hw
    by_cases hk : keep c = true
    · simp only [runsGo, hk, ite_true] at hw
      exact ih (c :: acc) w hw
    · simp only [runsGo, hk, Bool.false_eq_true, ite_false] at hw
      by_cases h : acc = []
      · rw [if_pos h] at hw
        exact ih [] w hw
      · rw [if_neg h] at hw
        rcases List.mem_cons.mp hw with h0 | h1
        · subst h0; simpa using h
        · exact ih [] w h1

theorem splitRuns_eq_nil_iff (keep : Char → Bool) (l : List Char) :
    splitRuns keep l = [] ↔ ∀ c ∈ l, keep c = false := by
  unfold splitRuns
  induction l with
  | nil => simp [runsGo]
  | cons c rest ih =>
    by_cases hk : keep c = true
    · simp only [runsGo, hk, ite_true]
      constructor
      · intro h
        exact absurd h (runsGo_ne_nil keep rest (c :: []) (by simp))
      · intro h
        exact absurd (h c (by simp)) (by simp [hk])
    · simp only [runsGo, hk, Bool.false_eq_true, ite_false, ite_true, if_pos rfl]
      rw [ih]
      constructor
      · intro h x hx
        rcases List.mem_cons.mp hx with h0 | h1
        · subst h0; simpa using hk
        · exact h x h1
      · intro h x hx
        exact h x (List.mem_cons_of_mem c hx)

/-! ## Range-loop lemmas -/

theorem pyRangeGo_length (s : Nat) :
    ∀ fuel stop i, stop - i ≤ fuel →
      (pyRangeGo fuel stop s i).length = (stop - i + s) / (s + 1) := by
  intro fuel
  induction fuel with
  | zero =>
    intro stop i h
    have h0 : stop - i = 0 := Nat.le_zero.mp h
    have hz : s / (s + 1) = 0 := Nat.div_eq_of_lt (by omega)
    simp [pyRangeGo, h0, hz]
  | succ f ih =>
    intro stop i h
    by_cases hlt : i < stop
    · have hrec : stop - (i + s + 1) ≤ f := by omega
      have hih := ih stop (i + s + 1) hrec
      have h1 : (stop - (i + s + 1) + s) / (s + 1) = (stop - i - 1) / (s + 1) := by
        by_cases hcase : stop ≤ i + s + 1
        · have ha : stop - (i + s + 1) = 0 := by omega
          have hz1 : s / (s + 1) = 0 := Nat.div_eq_of_lt (by omega)
          have hz2 : (stop - i - 1) / (s + 1) = 0 := Nat.div_eq_of_lt (by omega)
          rw [ha, Nat.zero_add, hz1, hz2]
        · have heq : stop - (i + s + 1) + s = stop - i - 1 := by omega
          rw [heq]
      have h2 : stop - i + s = stop - i - 1 + (s + 1) := by omega
      have h3 : (stop - i - 1 + (s + 1)) / (s + 1) = (stop - i - 1) / (s + 1) + 1 :=
        Nat.add_div_right _ (Nat.succ_pos s)
      simp only [pyRangeGo, hlt, ite_true, List.length_cons]
      rw [hih, h1, h2, h3]
    · have h0 : stop - i = 0 := by omega
      have hz : s / (s + 1) = 0 := Nat.div_eq_of_lt (by omega)
      simp [pyRangeGo, hlt, h0, hz]

theorem pyRangeGo_mem_lt (s : Nat) :
    ∀ fuel stop i j, j ∈ pyRangeGo fuel stop s i → j < stop := by
  intro fuel
  induction fuel with
  | zero => intro stop i j h; simp [pyRangeGo] at h
  | succ f ih =>
    intro stop i j h
    by_cases hlt : i < stop
    · simp only [pyRangeGo, hlt, ite_true] at h
      rcases List.mem_cons.mp h with h0 | h1
      · omega
      · exact ih stop (i + s + 1) j h1
    · simp [pyRangeGo, hlt] at h

theorem pyRange0_length (stop step : Nat) :
    (pyRange0 stop step).length = (stop + (step - 1)) / ((step - 1) + 1) := by
  unfold pyRange0
  rw [pyRangeGo_length (step - 1) stop stop 0 (by omega)]
  simp

theorem joinSp_ne_nil (ws : List (List Char)) (hne : ws ≠ [])
    (hws : ∀ w ∈ ws, w ≠ []) : joinSp ws ≠ [] := by
  cases ws with
  | nil => exact absurd rfl hne
  | cons w rest =>
    cases rest with
    | nil => simpa [joinSp] using hws w (by simp)
    | cons w2 r2 => simp [joinSp]

theorem chunk_text_mem_ne_nil (text : List Char) (mw ov : Nat) (hmw : 1 ≤ mw) :
    ∀ c ∈ chunk_text text mw ov, c ≠ [] := by
  intro c hc
  unfold chunk_text at hc
  by_cases hw : pySplit (clean_text text) = []
  · simp [hw] at hc
  · rw [if_neg hw] at hc
    rcases List.mem_map.mp hc with ⟨i, hi, hci⟩
    have hilt : i < (pySplit (clean_text text)).length := by
      have := pyRangeGo_mem_lt _ _ _ _ _ hi
      simpa using this
    subst hci
    apply joinSp_ne_nil
    · have hdrop : (pySplit (clean_text text)).drop i ≠ [] := by
        intro h0
        rw [List.drop_eq_nil_iff] at h0
        omega
      intro h0
      rw [List.take_eq_nil_iff] at h0
      rcases h0 with h0 | h0
      · omega
      · exact hdrop h0
    · intro w hwmem
      exact runsGo_mem_ne_nil _ _ [] w
        (List.mem_of_mem_drop (List.mem_of_mem_take hwmem))

/-- Claim C4: for a text whose normalized form has `N ≥ 1` words, `chunk_text`
with `max_words = 220` and `overlap = 60` yields exactly `⌈N / 160⌉`
chunks (in `Nat` arithmetic `(N + 159) / 160`), and every chunk is some
window of at most 220 consecutive words rejoined with single spaces. -/
theorem chunk_text_count (text : List Char)
    (h : 1 ≤ (pySplit (clean_text text)).length) :
    (chunk_text text 220 60).length = ((pySplit (clean_text text)).length + 159) / 160 ∧
    ∀ c ∈ chunk_text text 220 60, ∃ i,
      c = joinSp (((pySplit (clean_text text)).drop i).take 220) := by
  have hw : pySplit (clean_text text) ≠ [] := by
    intro h0; rw [h0] at h; simp at h
  constructor
  · unfold chunk_text
    rw [if_neg hw, List.length_map]
    have hstep : max 1 (220 - 60) = 160 := by norm_num
    rw [hstep, pyRange0_length]
  · intro c hc
    unfold chunk_text at hc
    rw [if_neg hw] at hc
    rcases List.mem_map.mp hc with ⟨i, _, hci⟩
    exact ⟨i, hci.symm⟩

/-- Witness for `chunk_text_count`: the three-word text `"a b c"` has one
chunk, and `(3 + 159) / 160 = 1`. -/
theorem chunk_text_count_witness :
    (chunk_text (lchars ("a b c")) 220 60).length =
      ((pySplit (clean_text (lchars ("a b c")))).length + 159) / 160 ∧
    ∀ c ∈ chunk_text (lchars ("a b c")) 220 60, ∃ i,
      c = joinSp (((pySplit (clean_text (lchars ("a b c")))).drop i).take 220) :=
  chunk_text_count (lchars ("a b c")) (by decide)

/-- Claim C5: for every text, every `max_words` and every overlap — including
`overlap ≥ max_words` — `chunk_text` is a total function producing a finite
list of at most one chunk per word (the `max 1 _` step floor prevents a zero
step), and a zero-word normalized text yields the empty list. -/
theorem chunk_text_total_bound (text : List Char) (mw ov : Nat) :
    (pySplit (clean_text text) = [] → chunk_text text mw ov = []) ∧
    (chunk_text text mw ov).length ≤ (pySplit (clean_text text)).length := by
  constructor
  · intro h; unfold chunk_text; rw [if_pos h]
  · by_cases hw : pySplit (clean_text text) = []
    · unfold chunk_text; rw [if_pos hw]; simp
    · unfold chunk_text
      rw [if_neg hw, List.length_map, pyRange0_length]
      set N := (pySplit (clean_text text)).length
      set s := max 1 (mw - ov) - 1
      have : N + s < (s + 1) * (N + 1) := by nlinarith
      have hdiv : (N + s) / (s + 1) < N + 1 :=
        Nat.div_lt_of_lt_mul (by linarith [this])
      omega

/-- Witness for `chunk_text_total_bound`: with `overlap = 500 ≥ max_words = 3`
the empty-text clause and the length bound hold on `"a b"`. -/
theorem chunk_text_total_bound_witness :
    (pySplit (clean_text (lchars ("a b"))) = [] →
      chunk_text (lchars ("a b")) 3 500 = []) ∧
    (chunk_text (lchars ("a b")) 3 500).length ≤
      (pySplit (clean_text (lchars ("a b")))).length :=
  chunk_text_total_bound (lchars ("a b")) 3 500

/-! ## Upload-route lemmas -/

theorem build_passages_eq_nil (doc_id title : List Char) :
    ∀ i pts, (∀ t ∈ pts, clean_text t = []) →
      build_passages doc_id title i pts = [] := by
  intro i pts
  induction pts generalizing i with
  | nil => intro _; rfl
  | cons raw rest ih =>
    intro h
    have hraw : clean_text raw = [] := h raw (by simp)
    simp only [build_passages, hraw, ite_true, if_pos rfl, List.nil_append]
    exact ih (i + 1) (fun t ht => h t (List.mem_cons_of_mem raw ht))

theorem build_passages_text_ne_nil (doc_id title : List Char) :
    ∀ i pts, ∀ p ∈ build_passages doc_id title i pts, p.text ≠ [] := by
  intro i pts
  induction pts generalizing i with
  | nil => intro p hp; simp [build_passages] at hp
  | cons raw rest ih =>
    intro p hp
    simp only [build_passages] at hp
    rcases List.mem_append.mp hp with h1 | h2
    · by_cases hraw : clean_text raw = []
      · rw [if_pos hraw] at h1; simp at h1
      · rw [if_neg hraw] at h1
        rcases List.mem_map.mp h1 with ⟨ch, hch, hpch⟩
        have := chunk_text_mem_ne_nil (clean_text raw) 220 60 (by omega) ch hch
        subst hpch
        simpa using this
    · exact ih (i + 1) p h2

/-- Claim C9: if every page is empty after normalization, `upload` fails with
HTTP 400 rather than indexing nothing; and whenever indexing succeeds, every
indexed passage has non-empty text. -/
theorem upload_core_spec (doc_id title : List Char) (pts : List (List Char)) :
    ((∀ t ∈ pts, clean_text t = []) →
      upload_core doc_id title pts = Except.error 400) ∧
    (∀ ps, upload_core doc_id title pts = Except.ok ps →
      ∀ p ∈ ps, p.text ≠ []) := by
  constructor
  · intro h
    unfold upload_core
    rw [if_pos (build_passages_eq_nil doc_id title 1 pts h)]
  · intro ps hok p hp
    unfold upload_core at hok
    by_cases hb : build_passages doc_id title 1 pts = []
    · rw [if_pos hb] at hok; exact absurd hok (by simp)
    · rw [if_neg hb] at hok
      have hps : ps = build_passages doc_id title 1 pts :=
        (Except.ok.injEq _ _ ▸ congrArg id hok).symm ▸ (Except.ok.inj hok).symm
      rw [hps] at hp
      exact build_passages_text_ne_nil doc_id title 1 pts p hp

/-- Witness for `upload_core_spec`: an all-blank document is rejected with 400,
and the passage indexed from `"hello world"` has non-empty text. -/
theorem upload_core_spec_witness :
    upload_core (lchars ("d")) (lchars ("t")) [lchars ("  ")] = Except.error 400 ∧
    ∀ p ∈ [Passage.mk (lchars ("d")) (lchars ("t")) 1 (lchars ("hello world"))],
      p.text ≠ [] :=
  ⟨(upload_core_spec (lchars ("d")) (lchars ("t")) [lchars ("  ")]).1 (by decide),
   (upload_core_spec (lchars ("d")) (lchars ("t")) [lchars ("hello world")]).2
     [Passage.mk (lchars ("d")) (lchars ("t")) 1 (lchars ("hello world"))] rfl⟩

/-! ## De-duplication lemmas -/

theorem dedupeGo_sublist (hl : Nat) :
    ∀ (l : List Hit) (seen : List (Nat × List Char)),
      List.Sublist (dedupeGo hl l seen) l := by
  intro l
  induction l with
  | nil => intro seen; simp [dedupeGo]
  | cons h rest ih =>
    intro seen
    by_cases hmem : hitKey hl h ∈ seen
    · simp only [dedupeGo, if_pos hmem]
      exact (ih seen).cons h
    · simp only [dedupeGo, if_neg hmem]
      exact (ih (hitKey hl h :: seen)).cons₂ h

theorem dedupeGo_keys (hl : Nat) :
    ∀ (l : List Hit) (seen : List (Nat × List Char)),
      ((dedupeGo hl l seen).map (hitKey hl)).Nodup ∧
      ∀ k ∈ (dedupeGo hl l seen).map (hitKey hl), k ∉ seen := by
  intro l
  induction l with
  | nil => intro seen; simp [dedupeGo]
  | cons h rest ih =>
    intro seen
    by_cases hmem : hitKey hl h ∈ seen
    · simpa only [dedupeGo, if_pos hmem] using ih seen
    · simp only [dedupeGo, if_neg hmem, List.map_cons, List.nodup_cons]
      have ihs := ih (hitKey hl h :: seen)
      refine ⟨⟨?_, ihs.1⟩, ?_⟩
      · intro hcon
        exact ihs.2 (hitKey hl h) hcon (by simp)
      · intro k hk
        rcases List.mem_cons.mp hk with h0 | h1
        · subst h0; exact hmem
        · intro hcon
          exact ihs.2 k h1 (List.mem_cons_of_mem _ hcon)

theorem dedupeGo_min (hl : Nat) :
    ∀ (l : List Hit) (seen : List (Nat × List Char)),
      List.Sorted hitLe l →
      ∀ h ∈ l, hitKey hl h ∈ seen ∨
        ∃ k ∈ dedupeGo hl l seen,
          hitKey hl k = hitKey hl h ∧ k.distance ≤ h.distance := by
  intro l
  induction l with
  | nil => intro seen _ h hh; simp at hh
  | cons h0 rest ih =>
    intro seen hsort h hh
    by_cases hmem : hitKey hl h0 ∈ seen
    · simp only [dedupeGo, if_pos hmem]
      rcases List.mem_cons.mp hh with h1 | h1
      · subst h1; exact Or.inl hmem
      · exact ih seen hsort.of_cons h h1
    · simp only [dedupeGo, if_neg hmem]
      rcases List.mem_cons.mp hh with h1 | h1
      · subst h1
        exact Or.inr ⟨h, List.mem_cons_self h _, rfl, le_refl _⟩
      · rcases ih (hitKey hl h0 :: seen) hsort.of_cons h h1 with h2 | ⟨k, hk, hkey, hd⟩
        · rcases List.mem_cons.mp h2 with h3 | h3
          · refine Or.inr ⟨h0, List.mem_cons_self h0 _, h3.symm, ?_⟩
            exact List.rel_of_sorted_cons hsort h h1
          · exact Or.inl h3
        · exact Or.inr ⟨k, List.mem_cons_of_mem h0 hk, hkey, hd⟩

/-- Claim C1: `dedupe_hits` returns a list sorted by ascending distance, no
longer than its input, with pairwise-distinct `(page, normalized-head)` keys,
and for every input hit the surviving hit of its key group has a distance no
greater than that input hit's (hence the group minimum). -/
theorem dedupe_hits_spec (hits : List Hit) (head_len : Nat) :
    List.Sorted (fun a b => a.distance ≤ b.distance) (dedupe_hits hits head_len) ∧
    (dedupe_hits hits head_len).length ≤ hits.length ∧
    ((dedupe_hits hits head_len).map (hitKey head_len)).Nodup ∧
    ∀ h ∈ hits, ∃ k ∈ dedupe_hits hits head_len,
      hitKey head_len k = hitKey head_len h ∧ k.distance ≤ h.distance := by
  have hsub := dedupeGo_sublist head_len (List.insertionSort hitLe hits) []
  refine ⟨?_, ?_, ?_, ?_⟩
  · exact (List.sorted_insertionSort hitLe hits).sublist hsub
  · calc (dedupe_hits hits head_len).length
        ≤ (List.insertionSort hitLe hits).length := hsub.length_le
      _ = hits.length := List.length_insertionSort hitLe hits
  · exact (dedupeGo_keys head_len (List.insertionSort hitLe hits) []).1
  · intro h hh
    have hmem : h ∈ List.insertionSort hitLe hits :=
      (List.perm_insertionSort hitLe hits).mem_iff.mpr hh
    rcases dedupeGo_min head_len (List.insertionSort hitLe hits) []
        (List.sorted_insertionSort hitLe hits) h hmem with h0 | h1
    · simp at h0
    · exact h1

/-- Witness for `dedupe_hits_spec`: among three hits where the first two share
the key `(1, "dup")`, the survivor of that group is at distance 1 ≤ 2. -/
theorem dedupe_hits_spec_witness :
    ∃ k ∈ dedupe_hits
        [Hit.mk (lchars ("dup")) (lchars ("d")) (lchars ("T")) 1 1,
         Hit.mk (lchars ("dup")) (lchars ("d")) (lchars ("T")) 1 2,
         Hit.mk (lchars ("other")) (lchars ("d")) (lchars ("T")) 2 3] 200,
      hitKey 200 k =
        hitKey 200 (Hit.mk (lchars ("dup")) (lchars ("d")) (lchars ("T")) 1 2) ∧
      k.distance ≤ (Hit.mk (lchars ("dup")) (lchars ("d")) (lchars ("T")) 1 2).distance :=
  (dedupe_hits_spec
    [Hit.mk (lchars ("dup")) (lchars ("d")) (lchars ("T")) 1 1,
     Hit.mk (lchars ("dup")) (lchars ("d")) (lchars ("T")) 1 2,
     Hit.mk (lchars ("other")) (lchars ("d")) (lchars ("T")) 2 3] 200).2.2.2
    (Hit.mk (lchars ("dup")) (lchars ("d")) (lchars ("T")) 1 2) (by decide)

/-! ## Synthesis lemmas -/

theorem pickLoop_extends (maxS : Nat) :
    ∀ (cands : List Cand) (acc : List (List Char × Nat × List Char))
      (seen : List (List Char)),
      ∃ e, pickLoop maxS cands acc seen = acc ++ e := by
  intro cands
  induction cands with
  | nil => intro acc seen; exact ⟨[], by simp [pickLoop]⟩
  | cons c rest ih =>
    intro acc seen
    by_cases hseen : lowerStr c.sent ∈ seen
    · simpa only [pickLoop, if_pos hseen] using ih acc seen
    · simp only [pickLoop, if_neg hseen]
      by_cases hbreak : maxS ≤ (acc ++ [(c.sent, c.page, c.title)]).length
      · exact ⟨[(c.sent, c.page, c.title)], by rw [if_pos hbreak]⟩
      · rw [if_neg hbreak]
        rcases ih (acc ++ [(c.sent, c.page, c.title)]) (lowerStr c.sent :: seen)
          with ⟨e, he⟩
        exact ⟨[(c.sent, c.page, c.title)] ++ e, by rw [he, List.append_assoc]⟩

theorem pickLoop_length (maxS : Nat) :
    ∀ (cands : List Cand) (acc : List (List Char × Nat × List Char))
      (seen : List (List Char)),
      acc.length < maxS → (pickLoop maxS cands acc seen).length ≤ maxS := by
  intro cands
  induction cands with
  | nil => intro acc seen h; simpa [pickLoop] using Nat.le_of_lt h
  | cons c rest ih =>
    intro acc seen h
    by_cases hseen : lowerStr c.sent ∈ seen
    · simp only [pickLoop, if_pos hseen]
      exact ih acc seen h
    · simp only [pickLoop, if_neg hseen]
      by_cases hbreak : maxS ≤ (acc ++ [(c.sent, c.page, c.title)]).length
      · rw [if_pos hbreak]
        simp only [List.length_append, List.length_singleton]
        omega
      · rw [if_neg hbreak]
        refine ih _ _ ?_
        simp only [List.length_append, List.length_singleton] at hbreak ⊢
        omega

theorem pickLoop_pairwise (maxS : Nat) :
    ∀ (cands : List Cand) (acc : List (List Char × Nat × List Char))
      (seen : List (List Char)),
      (∀ p ∈ acc, lowerStr p.1 ∈ seen) →
      acc.Pairwise (fun a b => lowerStr a.1 ≠ lowerStr b.1) →
      (pickLoop maxS cands acc seen).Pairwise
        (fun a b => lowerStr a.1 ≠ lowerStr b.1) := by
  intro cands
  induction cands with
  | nil => intro acc seen _ hpw; simpa [pickLoop] using hpw
  | cons c rest ih =>
    intro acc seen hsub hpw
    by_cases hseen : lowerStr c.sent ∈ seen
    · simp only [pickLoop, if_pos hseen]
      exact ih acc seen hsub hpw
    · simp only [pickLoop, if_neg hseen]
      have hpw2 : (acc ++ [(c.sent, c.page, c.title)]).Pairwise
          (fun a b => lowerStr a.1 ≠ lowerStr b.1) := by
        rw [List.pairwise_append]
        refine ⟨hpw, by simp, ?_⟩
        intro a ha b hb
        simp only [List.mem_singleton] at hb
        subst hb
        intro hcon
        exact hseen (hcon ▸ hsub a ha)
      by_cases hbreak : maxS ≤ (acc ++ [(c.sent, c.page, c.title)]).length
      · rw [if_pos hbreak]; exact hpw2
      · rw [if_neg hbreak]
        refine ih _ _ ?_ hpw2
        intro p hp
        rcases List.mem_append.mp hp with h1 | h2
        · exact List.mem_cons_of_mem _ (hsub p h1)
        · simp only [List.mem_singleton] at h2
          subst h2
          exact List.mem_cons_self _ _

theorem pickLoop_mem (maxS : Nat) :
    ∀ (cands : List Cand) (acc : List (List Char × Nat × List Char))
      (seen : List (List Char)) (p : List Char × Nat × List Char),
      p ∈ pickLoop maxS cands acc seen →
      p ∈ acc ∨ ∃ c ∈ cands, p = (c.sent, c.page, c.title) := by
  intro cands
  induction cands with
  | nil => intro acc seen p hp; exact Or.inl (by simpa [pickLoop] using hp)
  | cons c rest ih =>
    intro acc seen p hp
    by_cases hseen : lowerStr c.sent ∈ seen
    · simp only [pickLoop, if_pos hseen] at hp
      rcases ih acc seen p hp with h1 | ⟨c2, hc2, hpc2⟩
      · exact Or.inl h1
      · exact Or.inr ⟨c2, List.mem_cons_of_mem c hc2, hpc2⟩
    · simp only [pickLoop, if_neg hseen] at hp
      by_cases hbreak : maxS ≤ (acc ++ [(c.sent, c.page, c.title)]).length
      · rw [if_pos hbreak] at hp
        rcases List.mem_append.mp hp with h1 | h2
        · exact Or.inl h1
        · simp only [List.mem_singleton] at h2
          exact Or.inr ⟨c, List.mem_cons_self c rest, h2⟩
      · rw [if_neg hbreak] at hp
        rcases ih _ _ p hp with h1 | ⟨c2, hc2, hpc2⟩
        · rcases List.mem_append.mp h1 with h3 | h4
          · exact Or.inl h3
          · simp only [List.mem_singleton] at h4
            exact Or.inr ⟨c, List.mem_cons_self c rest, h4⟩
        · exact Or.inr ⟨c2, List.mem_cons_of_mem c hc2, hpc2⟩

theorem candInner_extends (qt : List (List Char)) (pg : Nat) (ttl : List Char)
    (acc : List Cand) (sent : List Char) :
    ∃ e, candInner qt pg ttl acc sent = acc ++ e := by
  unfold candInner
  by_cases ht : toksOf sent = []
  · exact ⟨[], by simp [ht]⟩
  · rw [if_neg ht]
    by_cases hc : 0 < ((qt.filter (fun w => decide (w ∈ toksOf sent)))).length ∨
        acc.length < 4
    · rw [if_pos hc]
      exact ⟨_, rfl⟩
    · rw [if_neg hc]
      exact ⟨[], by simp⟩

theorem candFold_extends (qt : List (List Char)) (pg : Nat) (ttl : List Char) :
    ∀ (sents : List (List Char)) (acc : List Cand),
      ∃ e, sents.foldl (candInner qt pg ttl) acc = acc ++ e := by
  intro sents
  induction sents with
  | nil => intro acc; exact ⟨[], by simp⟩
  | cons s rest ih =>
    intro acc
    rcases candInner_extends qt pg ttl acc s with ⟨e1, he1⟩
    rcases ih (candInner qt pg ttl acc s) with ⟨e2, he2⟩
    exact ⟨e1 ++ e2, by rw [List.foldl_cons, he2, he1, List.append_assoc]⟩

theorem candStep_extends (qt : List (List Char)) (acc : List Cand) (h : Hit) :
    ∃ e, candStep qt acc h = acc ++ e :=
  candFold_extends qt h.page h.title _ acc

theorem candFold_skip_all (qt : List (List Char)) (pg : Nat) (ttl : List Char) :
    ∀ (sents : List (List Char)) (acc : List Cand),
      (∀ s ∈ sents, toksOf s = []) →
      sents.foldl (candInner qt pg ttl) acc = acc := by
  intro sents
  induction sents with
  | nil => intro acc _; rfl
  | cons s rest ih =>
    intro acc h
    have hs : toksOf s = [] := h s (by simp)
    rw [List.foldl_cons]
    have : candInner qt pg ttl acc s = acc := by simp [candInner, hs]
    rw [this]
    exact ih acc (fun x hx => h x (List.mem_cons_of_mem s hx))

theorem candFold_ne_nil (qt : List (List Char)) (pg : Nat) (ttl : List Char) :
    ∀ (sents : List (List Char)) (acc : List Cand),
      (∃ s ∈ sents, toksOf s ≠ []) →
      sents.foldl (candInner qt pg ttl) acc ≠ [] := by
  intro sents
  induction sents with
  | nil => intro acc h; simp at h
  | cons s rest ih =>
    intro acc ⟨s0, hs0, ht0⟩
    rw [List.foldl_cons]
    rcases List.mem_cons.mp hs0 with h1 | h1
    · subst h1
      have hacc2 : candInner qt pg ttl acc s0 ≠ [] := by
        unfold candInner
        rw [if_neg ht0]
        by_cases hc : 0 < ((qt.filter (fun w => decide (w ∈ toksOf s0)))).length ∨
            acc.length < 4
        · rw [if_pos hc]; simp
        · rw [if_neg hc]
          intro hnil
          rw [hnil] at hc
          exact hc (Or.inr (by simp))
      rcases candFold_extends qt pg ttl rest (candInner qt pg ttl acc s0)
        with ⟨e, he⟩
      rw [he]
      intro hnil
      exact hacc2 (List.append_eq_nil.mp hnil).1
    · exact ih _ ⟨s0, h1, ht0⟩

theorem candidatesOf_extends (qt : List (List Char)) :
    ∀ (hits : List Hit) (acc : List Cand),
      ∃ e, hits.foldl (candStep qt) acc = acc ++ e := by
  intro hits
  induction hits with
  | nil => intro acc; exact ⟨[], by simp⟩
  | cons h rest ih =>
    intro acc
    rcases candStep_extends qt acc h with ⟨e1, he1⟩
    rcases ih (candStep qt acc h) with ⟨e2, he2⟩
    exact ⟨e1 ++ e2, by rw [List.foldl_cons, he2, he1, List.append_assoc]⟩

theorem candFoldHits_ne_nil (qt : List (List Char)) :
    ∀ (hits : List Hit) (acc : List Cand),
      (∃ h ∈ hits, ∃ s ∈ split_sentences (clean_text h.snippet), toksOf s ≠ []) →
      hits.foldl (candStep qt) acc ≠ [] := by
  intro hits
  induction hits with
  | nil => intro acc h; simp at h
  | cons h2 rest ih =>
    intro acc ⟨h, hh, s, hs, hne⟩
    rw [List.foldl_cons]
    rcases List.mem_cons.mp hh with h3 | h3
    · subst h3
      have hstep : candStep qt acc h ≠ [] :=
        candFold_ne_nil _ _ _ _ acc ⟨s, hs, hne⟩
      rcases candidatesOf_extends qt rest (candStep qt acc h) with ⟨e, he⟩
      rw [he]
      intro hnil
      exact hstep (List.append_eq_nil.mp hnil).1
    · exact ih _ ⟨h, h3, s, hs, hne⟩

theorem candFoldHits_skip_all (qt : List (List Char)) :
    ∀ (hits : List Hit) (acc : List Cand),
      (∀ h ∈ hits, ∀ s ∈ split_sentences (clean_text h.snippet), toksOf s = []) →
      hits.foldl (candStep qt) acc = acc := by
  intro hits
  induction hits with
  | nil => intro acc _; rfl
  | cons h rest ih =>
    intro acc hall
    rw [List.foldl_cons]
    have hstep : candStep qt acc h = acc :=
      candFold_skip_all _ _ _ _ acc (hall h (by simp))
    rw [hstep]
    exact ih acc (fun x hx s hs => hall x (List.mem_cons_of_mem h hx) s hs)

theorem candidatesOf_eq_nil_iff (question : List Char) (hits : List Hit) :
    candidatesOf question hits = [] ↔
      ∀ h ∈ hits, ∀ s ∈ split_sentences (clean_text h.snippet), toksOf s = [] := by
  constructor
  · intro hnil h hh s hs
    by_contra hne
    exact candFoldHits_ne_nil (toksOf question) hits [] ⟨h, hh, s, hs, hne⟩ hnil
  · intro hall
    exact candFoldHits_skip_all (toksOf question) hits [] hall

theorem pickedRaw_ne_nil (question : List Char) (hits : List Hit) (maxS : Nat)
    (h : candidatesOf question hits ≠ []) :
    pickedRaw question hits maxS ≠ [] := by
  unfold pickedRaw
  cases hsort : List.insertionSort candGe (candidatesOf question hits) with
  | nil =>
    exfalso
    apply h
    have := List.length_insertionSort candGe (candidatesOf question hits)
    rw [hsort] at this
    exact List.length_eq_zero.mp this.symm
  | cons c rest =>
    simp only [pickLoop, List.not_mem_nil, ite_false, List.nil_append, if_neg]
    by_cases hbreak : maxS ≤ ([(c.sent, c.page, c.title)]).length
    · rw [if_pos hbreak]; simp
    · rw [if_neg hbreak]
      rcases pickLoop_extends maxS rest [(c.sent, c.page, c.title)]
        [lowerStr c.sent] with ⟨e, he⟩
      rw [he]
      simp

/-- Claim C7: for every question and every `max_sentences`, `synthesize_answer`
on an empty hit list returns the empty answer with no citations. -/
theorem synthesize_answer_empty_hits (question : List Char) (maxS : Nat) :
    synthesize_answer question [] maxS = ⟨[], []⟩ := rfl

/-- Claim C3 (amended): for `max_sentences ≥ 1`, `synthesize_answer` returns at
most `max_sentences` citations and no two picked sentences are equal
case-insensitively.  (For `max_sentences = 0` the code still returns one
citation, because the break test runs only after the first append.) -/
theorem synthesize_answer_citations_bound (question : List Char) (hits : List Hit)
    (maxS : Nat) (hm : 1 ≤ maxS) :
    (synthesize_answer question hits maxS).citations.length ≤ maxS ∧
    (pickedFinal question hits maxS).Pairwise
      (fun a b => lowerStr a.1 ≠ lowerStr b.1) := by
  cases hits with
  | nil => exact ⟨by simp [synthesize_answer], by simp [pickedFinal]⟩
  | cons h0 t =>
    have hcit : (synthesize_answer question (h0 :: t) maxS).citations =
        (pickedFinal question (h0 :: t) maxS).map (fun p => (p.2.1, p.2.2)) := rfl
    by_cases hpr : pickedRaw question (h0 :: t) maxS = []
    · have hpf : pickedFinal question (h0 :: t) maxS =
          [(clean_text h0.snippet, h0.page, h0.title)] := by
        simp [pickedFinal, hpr]
      exact ⟨by rw [hcit, hpf]; simpa using hm, by rw [hpf]; simp⟩
    · have hpf : pickedFinal question (h0 :: t) maxS =
          pickedRaw question (h0 :: t) maxS := by
        simp [pickedFinal, hpr]
      constructor
      · rw [hcit, hpf, List.length_map]
        exact pickLoop_length maxS _ [] [] (by simpa using hm)
      · rw [hpf]
        exact pickLoop_pairwise maxS _ [] [] (by simp) (by simp)

/-- Witness for `synthesize_answer_citations_bound` at `max_sentences = 3`. -/
theorem synthesize_answer_citations_bound_witness :
    (synthesize_answer (lchars ("how long"))
      [Hit.mk (lchars ("It is long. It is very long."))
        (lchars ("d")) (lchars ("T")) 1 1] 3).citations.length ≤ 3 ∧
    (pickedFinal (lchars ("how long"))
      [Hit.mk (lchars ("It is long. It is very long."))
        (lchars ("d")) (lchars ("T")) 1 1] 3).Pairwise
      (fun a b => lowerStr a.1 ≠ lowerStr b.1) :=
  synthesize_answer_citations_bound (lchars ("how long"))
    [Hit.mk (lchars ("It is long. It is very long."))
      (lchars ("d")) (lchars ("T")) 1 1] 3 (by decide)

/-- Counterexample to claim C3 as stated: with `max_sentences = 0` (and a hit
whose snippet has no word tokens, so the fallback fires) the synthesizer
returns one citation, exceeding `max_sentences`. -/
theorem synthesize_answer_citations_over_limit :
    ¬ ((synthesize_answer (lchars ("q"))
        [Hit.mk (lchars ("!!!")) (lchars ("d")) (lchars ("T")) 5 1]
        0).citations.length ≤ 0) := by
  decide

/-- Claim C8 (amended): over a non-empty hit list, the candidate list is empty
exactly when no sentence of any cleaned snippet has a word token (not only when
every snippet is empty); in that case the first hit's cleaned snippet is the
single fallback answer/citation unit, and otherwise every picked unit comes
from the candidate list. -/
theorem synthesize_answer_fallback_characterization (question : List Char)
    (maxS : Nat) (h0 : Hit) (t : List Hit) :
    ((candidatesOf question (h0 :: t) = []) ↔
      ∀ h ∈ h0 :: t, ∀ s ∈ split_sentences (clean_text h.snippet),
        toksOf s = []) ∧
    (candidatesOf question (h0 :: t) = [] →
      synthesize_answer question (h0 :: t) maxS =
        ⟨clean_text h0.snippet, [(h0.page, h0.title)]⟩) ∧
    (candidatesOf question (h0 :: t) ≠ [] →
      pickedRaw question (h0 :: t) maxS ≠ [] ∧
      ∀ p ∈ pickedFinal question (h0 :: t) maxS,
        ∃ c ∈ candidatesOf question (h0 :: t),
          p = (c.sent, c.page, c.title)) := by
  refine ⟨candidatesOf_eq_nil_iff question (h0 :: t), ?_, ?_⟩
  · intro hc
    have hpr : pickedRaw question (h0 :: t) maxS = [] := by
      rw [pickedRaw, hc]
      rfl
    have hpf : pickedFinal question (h0 :: t) maxS =
        [(clean_text h0.snippet, h0.page, h0.title)] := by
      simp [pickedFinal, hpr]
    show (⟨joinSp ((pickedFinal question (h0 :: t) maxS).map (fun p => p.1)),
      (pickedFinal question (h0 :: t) maxS).map (fun p => (p.2.1, p.2.2))⟩ : SynRes) = _
    rw [hpf]
    rfl
  · intro hc
    refine ⟨pickedRaw_ne_nil question (h0 :: t) maxS hc, ?_⟩
    intro p hp
    have hpf : pickedFinal question (h0 :: t) maxS =
        pickedRaw question (h0 :: t) maxS := by
      simp [pickedFinal, pickedRaw_ne_nil question (h0 :: t) maxS hc]
    rw [hpf] at hp
    rcases pickLoop_mem maxS _ [] [] p hp with h1 | ⟨c, hc2, hpc⟩
    · simp at h1
    · exact ⟨c, (List.mem_insertionSort candGe).mp hc2, hpc⟩

/-- Witness for `synthesize_answer_fallback_characterization`: a hit with an
empty snippet takes the fallback. -/
theorem synthesize_answer_fallback_characterization_witness :
    synthesize_answer (lchars ("why"))
      [Hit.mk (lchars ("")) (lchars ("d")) (lchars ("T")) 9 1] 3 =
      ⟨clean_text (Hit.mk (lchars ("")) (lchars ("d")) (lchars ("T")) 9 1).snippet,
        [((Hit.mk (lchars ("")) (lchars ("d")) (lchars ("T")) 9 1).page,
          (Hit.mk (lchars ("")) (lchars ("d")) (lchars ("T")) 9 1).title)]⟩ :=
  (synthesize_answer_fallback_characterization (lchars ("why")) 3
    (Hit.mk (lchars ("")) (lchars ("d")) (lchars ("T")) 9 1) []).2.1 (by decide)

/-- Counterexample to claim C8 as stated: the snippet `"???"` is non-empty
(also after normalization), yet it yields no candidates and the fallback is
taken, so the fallback is not restricted to all-empty snippets. -/
theorem fallback_taken_nonempty_snippet :
    candidatesOf (lchars ("what"))
      [Hit.mk (lchars ("???")) (lchars ("d")) (lchars ("T")) 2 1] = [] ∧
    clean_text (lchars ("???")) ≠ [] ∧
    synthesize_answer (lchars ("what"))
      [Hit.mk (lchars ("???")) (lchars ("d")) (lchars ("T")) 2 1] 3 =
      ⟨lchars ("???"), [(2, lchars ("T"))]⟩ := by
  decide

/-- Claim C10: over a non-empty hit list with `max_sentences ≥ 1`, the citation
list is non-empty, and each citation is either some candidate sentence's
`(page, title)` or, via the fallback, the first hit's `(page, title)`. -/
theorem synthesize_answer_citations_nonempty (question : List Char) (maxS : Nat)
    (h0 : Hit) (t : List Hit) (_hm : 1 ≤ maxS) :
    (synthesize_answer question (h0 :: t) maxS).citations ≠ [] ∧
    ∀ cit ∈ (synthesize_answer question (h0 :: t) maxS).citations,
      (∃ c ∈ candidatesOf question (h0 :: t), cit = (c.page, c.title)) ∨
      cit = (h0.page, h0.title) := by
  have hcit : (synthesize_answer question (h0 :: t) maxS).citations =
      (pickedFinal question (h0 :: t) maxS).map (fun p => (p.2.1, p.2.2)) := rfl
  by_cases hpr : pickedRaw question (h0 :: t) maxS = []
  · have hpf : pickedFinal question (h0 :: t) maxS =
        [(clean_text h0.snippet, h0.page, h0.title)] := by
      simp [pickedFinal, hpr]
    constructor
    · rw [hcit, hpf]; simp
    · intro cit hcitmem
      rw [hcit, hpf] at hcitmem
      simp only [List.map_cons, List.map_nil, List.mem_singleton] at hcitmem
      exact Or.inr hcitmem
  · have hpf : pickedFinal question (h0 :: t) maxS =
        pickedRaw question (h0 :: t) maxS := by
      simp [pickedFinal, hpr]
    constructor
    · rw [hcit, hpf]
      intro hnil
      exact hpr (List.map_eq_nil_iff.mp hnil)
    · intro cit hcitmem
      rw [hcit, hpf] at hcitmem
      rcases List.mem_map.mp hcitmem with ⟨p, hp, hcitp⟩
      rcases pickLoop_mem maxS _ [] [] p hp with h1 | ⟨c, hc2, hpc⟩
      · simp at h1
      · refine Or.inl ⟨c, (List.mem_insertionSort candGe).mp hc2, ?_⟩
        rw [← hcitp, hpc]

/-- Witness for `synthesize_answer_citations_nonempty` on a one-hit list. -/
theorem synthesize_answer_citations_nonempty_witness :
    (synthesize_answer (lchars ("hello"))
      [Hit.mk (lchars ("Hello there.")) (lchars ("d")) (lchars ("T")) 4 1]
      3).citations ≠ [] :=
  (synthesize_answer_citations_nonempty (lchars ("hello")) 3
    (Hit.mk (lchars ("Hello there.")) (lchars ("d")) (lchars ("T")) 4 1) []
    (by decide)).1

/-! ## Normalizer idempotence (claim C2) and distance filtering (claim C6) -/

theorem clean_text_expand (t : List Char) (h : ¬t = []) :
    clean_text t =
      stripWs (collapseWs
        (pyReplace ' ' ',' ',' (pyReplace ' ' '.' '.' (cidSub t)))) := by
  simp only [clean_text, if_neg h]

/-- Counterexample to claim C2 as stated: `clean_text "a  ." = "a ."` (the
`" ." -> "."` replacement consumes only one of the two spaces, and whitespace
collapsing runs after it), while `clean_text "a ." = "a."`, so `clean_text` is
not idempotent on every string. -/
theorem clean_text_not_idempotent :
    clean_text (clean_text (lchars ("a  ."))) ≠ clean_text (lchars ("a  .")) := by
  decide

/-- Claim C2 (amended): `clean_text` is idempotent on every string `s` whose
cleaned form `clean_text s` is left unchanged by the `(cid:N)`-removal pass and
by the `" ." -> "."` and `" ," -> ","` replacement passes — that is, whenever
`clean_text s` contains no `(cid:<digits>)` artifact and no space before a
period or comma.  The whitespace-collapse-and-strip passes are always
idempotent; the original universal claim fails only through the other three
passes. -/
theorem clean_text_idem_of_fixed (s : List Char)
    (h1 : cidSub (clean_text s) = clean_text s)
    (h2 : pyReplace ' ' '.' '.' (clean_text s) = clean_text s)
    (h3 : pyReplace ' ' ',' ',' (clean_text s) = clean_text s) :
    clean_text (clean_text s) = clean_text s := by
  by_cases hs : clean_text s = []
  · rw [hs]
    rfl
  · rw [clean_text_expand (clean_text s) hs, h1, h2, h3]
    by_cases hs0 : s = []
    · exact absurd (by rw [hs0]; rfl) hs
    · rw [clean_text_expand s hs0]
      exact stripWs_collapseWs_idem _

/-- Witness for `clean_text_idem_of_fixed` at `s = "ab"`. -/
theorem clean_text_idem_of_fixed_witness :
    clean_text (clean_text (lchars ("ab"))) = clean_text (lchars ("ab")) :=
  clean_text_idem_of_fixed (lchars ("ab")) (by decide) (by decide) (by decide)

/-- Claim C6: the optional distance threshold of `ask` keeps exactly the hits
with `distance ≤ max_distance` (a hit is dropped iff its distance is strictly
greater); on distances `[0.2, 0.5, 0.9]` with threshold `0.6` exactly the first
two survive, and a very strict threshold leaves the empty list as a valid
outcome. -/
theorem distance_filter_spec :
    (∀ (hits : List Hit) (md : ℚ) (h : Hit),
      h ∈ distanceFilter hits md ↔ h ∈ hits ∧ h.distance ≤ md) ∧
    distanceFilter
        [Hit.mk (lchars ("a")) (lchars ("d")) (lchars ("T")) 1 (mkRat 2 10),
         Hit.mk (lchars ("b")) (lchars ("d")) (lchars ("T")) 2 (mkRat 5 10),
         Hit.mk (lchars ("c")) (lchars ("d")) (lchars ("T")) 3 (mkRat 9 10)]
        (mkRat 6 10) =
      [Hit.mk (lchars ("a")) (lchars ("d")) (lchars ("T")) 1 (mkRat 2 10),
       Hit.mk (lchars ("b")) (lchars ("d")) (lchars ("T")) 2 (mkRat 5 10)] ∧
    distanceFilter
        [Hit.mk (lchars ("a")) (lchars ("d")) (lchars ("T")) 1 (mkRat 2 10),
         Hit.mk (lchars ("b")) (lchars ("d")) (lchars ("T")) 2 (mkRat 5 10),
         Hit.mk (lchars ("c")) (lchars ("d")) (lchars ("T")) 3 (mkRat 9 10)]
        (mkRat 1 10) = [] := by
  refine ⟨?_, by decide, by decide⟩
  intro hits md h
  unfold distanceFilter
  rw [List.mem_filter]
  simp

/-- Witness for `distance_filter_spec`: the membership characterization at a
concrete hit and threshold. -/
theorem distance_filter_spec_witness :
    Hit.mk (lchars ("a")) (lchars ("d")) (lchars ("T")) 1 1 ∈
        distanceFilter
          [Hit.mk (lchars ("a")) (lchars ("d")) (lchars ("T")) 1 1] 2 ↔
      Hit.mk (lchars ("a")) (lchars ("d")) (lchars ("T")) 1 1 ∈
          [Hit.mk (lchars ("a")) (lchars ("d")) (lchars ("T")) 1 1] ∧
        (Hit.mk (lchars ("a")) (lchars ("d")) (lchars ("T")) 1 1).distance ≤ 2 :=
  distance_filter_spec.1
    [Hit.mk (lchars ("a")) (lchars ("d")) (lchars ("T")) 1 1] 2
    (Hit.mk (lchars ("a")) (lchars ("d")) (lchars ("T")) 1 1)

end DocuQuery
